import Mathlib

/-!
Shallow embedding of `src/gpcdata.py` (class `GPCData` of AutoGPC).

Numeric entries are modelled as rationals; the `N x D` input matrix is a
list of `N` rows, each a list of `D` rationals.  Instance attributes that
the Python code creates lazily (`xranges`, `minseps`, `splits`/`nFolds`)
become `Option`-valued fields of an explicit state record, and every
method that can mutate the instance is a state-passing function.  The
random shuffle performed by `sklearn.cross_validation.KFold(shuffle=True)`
is externalised: the shuffled index list is an explicit argument, required
to be a permutation of `range N`.
-/

set_option synthInstance.maxSize 1000

namespace AutoGPC

abbrev Mat := List (List ℚ)
abbrev Vec := List ℚ

/-- The error conditions of the component: the `ValueError` raised by
`np.diff(np.unique(col)).min()` on an empty difference list, and the
`AssertionError` of the fold-count precondition. -/
inductive GPCError where
  | degenerateDimension
  | invalidFoldCount
deriving DecidableEq

/-- Return type of `kFoldSplits`: the tuple `(X, Y, XT, YT)` of four lists. -/
abbrev Splits := List Mat × List Vec × List Mat × List Vec

/-- Instance state of a `GPCData` object: the arrays `X`, `Y` plus the three
lazily created caches (`splits` and `nFolds` are always assigned together in
the source, so they are modelled as one optional pair). -/
structure GPCData where
  X : Mat
  Y : Vec
  xranges : Option (List ℚ)
  minseps : Option (List ℚ)
  foldCache : Option (Nat × Splits)
deriving DecidableEq

/-- `getNum`: number of data points, `X.shape[0]`. -/
def GPCData.getNum (d : GPCData) : Nat := d.X.length

/-- `getDim`: number of input dimensions, `X.shape[1]`. -/
def GPCData.getDim (d : GPCData) : Nat := (d.X.headD []).length

/-- A freshly constructed object: no cache attribute exists yet. -/
def mkGPCData (X : Mat) (Y : Vec) : GPCData := ⟨X, Y, none, none, none⟩

/-! ### Construction: the `XLabel` argument -/

/-- The possible shapes of the Python `XLabel` argument: `None`, an ordered
sequence (`list`/`tuple`) of strings, or a value of any other type. -/
inductive LabelArg where
  | noLabel
  | seqLabel (l : List String)
  | otherLabel

/-- One generated label, `'$x_{{{0}}}$'.format(d + 1)`. -/
def genXLabel (d : Nat) : String := "$x_\x7b" ++ toString d ++ "\x7d$"

/-- The generated default labels, one per dimension, 1-indexed. -/
def defaultXLabels (D : Nat) : List String :=
  (List.range D).map (fun d => genXLabel (d + 1))

/-- `self.XLabel` as assigned by `__init__`: the argument is used verbatim
only when it is a `list`/`tuple` of length exactly `D`. -/
def mkXLabels (arg : LabelArg) (D : Nat) : List String :=
  match arg with
  | .seqLabel l => if l.length = D then l else defaultXLabels D
  | _ => defaultXLabels D

/-! ### Range and minimum-separation statistics -/

/-- Column `j` of the input matrix, `X[:, j]`. -/
def col (X : Mat) (j : Nat) : List ℚ := X.map (fun r => r.getD j 0)

/-- Binary minimum of rationals (spelled out so that it evaluates by
kernel reduction). -/
def rmin (a b : ℚ) : ℚ := if a ≤ b then a else b

/-- Binary maximum of rationals. -/
def rmax (a b : ℚ) : ℚ := if a ≤ b then b else a

/-- `max` of a (nonempty) list of values, as `ndarray.max`. -/
def listMax (l : List ℚ) : ℚ := l.foldl rmax (l.headD 0)

/-- `min` of a (nonempty) list of values, as `ndarray.min`. -/
def listMin (l : List ℚ) : ℚ := l.foldl rmin (l.headD 0)

/-- `ndarray.min()` on a possibly empty array: `none` models the
`ValueError` on an empty sequence. -/
def npMin : List ℚ → Option ℚ
  | [] => none
  | a :: as => some (as.foldl rmin a)

/-- `X[:, j].max() - X[:, j].min()`. -/
def directRange (X : Mat) (j : Nat) : ℚ := listMax (col X j) - listMin (col X j)

/-- `X.max(axis=0) - X.min(axis=0)`: the 1 x D array cached as `xranges`. -/
def computeRanges (X : Mat) (D : Nat) : List ℚ := (List.range D).map (directRange X)

/-- `inputRange(dims)`: populate the `xranges` cache if absent, then slice it
at `dims`. -/
def inputRange (d : GPCData) (dims : List Nat) : List ℚ × GPCData :=
  match d.xranges with
  | some r => (dims.map (fun j => r.getD j 0), d)
  | none =>
      let r := computeRanges d.X d.getDim
      (dims.map (fun j => r.getD j 0), { d with xranges := some r })

/-- `np.unique(X[:, j])`: the ascending sorted list of distinct values of a
column. -/
def uniqueSorted (l : List ℚ) : List ℚ := l.dedup.insertionSort (· ≤ ·)

/-- `np.diff`: differences of consecutive entries. -/
def diffs (l : List ℚ) : List ℚ := List.zipWith (fun a b => b - a) l l.tail

/-- `np.diff(np.unique(X[:, j])).min()`: `none` models the `ValueError`
raised by `min` of an empty sequence. -/
def minsepCol (X : Mat) (j : Nat) : Option ℚ := npMin (diffs (uniqueSorted (col X j)))

/-- The minimum-separation value of a non-degenerate column. -/
def minsepVal (X : Mat) (j : Nat) : ℚ := (minsepCol X j).getD 0

/-- The loop of `minSeparation` filling `minseps[0, i]` for `i` in `dims`:
raises `degenerateDimension` as soon as a column has no pairwise difference. -/
def computeMinseps (X : Mat) : List Nat → Except GPCError (List ℚ)
  | [] => .ok []
  | i :: is =>
      match minsepCol X i with
      | none => .error .degenerateDimension
      | some v =>
          match computeMinseps X is with
          | .error e => .error e
          | .ok vs => .ok (v :: vs)

/-- `minSeparation(dims)`: populate the `minseps` cache for all `D` dimensions
if absent, then slice it at `dims`. -/
def minSeparation (d : GPCData) (dims : List Nat) :
    Except GPCError (List ℚ × GPCData) :=
  match d.minseps with
  | some ms => .ok (dims.map (fun j => ms.getD j 0), d)
  | none =>
      match computeMinseps d.X (List.range d.getDim) with
      | .error e => .error e
      | .ok ms => .ok (dims.map (fun j => ms.getD j 0), { d with minseps := some ms })

/-- `getLengthscaleBounds(dims)`: `np.vstack((minSeparation(dims),
inputRange(dims) * 2))`, modelled as the pair of the two rows. -/
def getLengthscaleBounds (d : GPCData) (dims : List Nat) :
    Except GPCError ((List ℚ × List ℚ) × GPCData) :=
  match minSeparation d dims with
  | .error e => .error e
  | .ok (lower, d1) =>
      let p := inputRange d1 dims
      .ok ((lower, p.1.map (fun x => x * 2)), p.2)

/-! ### k-fold splits

`sklearn.cross_validation.KFold(n, n_folds=k, shuffle=True)` shuffles
`arange(n)` into a permutation `sigma`, computes the balanced fold sizes
(`n // k`, with the first `n % k` folds one larger), slices `sigma` into `k`
consecutive blocks, and for each block emits the sorted test indices (the
block's members) and the sorted train indices (their complement in
`range n`), both extracted through a boolean mask over `arange(n)`. -/

/-- `fold_sizes`: `n // k` everywhere, `+1` on the first `n % k` folds. -/
def foldSizes (n k : Nat) : List Nat :=
  (List.range k).map (fun i => n / k + if i < n % k then 1 else 0)

/-- Cut a list into consecutive slices of the given sizes. -/
def sliceList {α : Type} (l : List α) : List Nat → List (List α)
  | [] => []
  | s :: ss => l.take s :: sliceList (l.drop s) ss

/-- The `k` blocks of shuffled indices, one per fold. -/
def testBlocks (σ : List Nat) (n k : Nat) : List (List Nat) :=
  sliceList σ (foldSizes n k)

/-- Sorted test indices of fold `i` (mask extraction over `arange(n)`). -/
def testInd (σ : List Nat) (n k i : Nat) : List Nat :=
  (List.range n).filter (fun j => decide (j ∈ (testBlocks σ n k).getD i []))

/-- Sorted train indices of fold `i`: the complement mask. -/
def trainInd (σ : List Nat) (n k i : Nat) : List Nat :=
  (List.range n).filter (fun j => decide (j ∉ (testBlocks σ n k).getD i []))

/-- Fancy indexing `M[ind]` on rows. -/
def selectRows (M : Mat) (ind : List Nat) : Mat := ind.map (fun i => M.getD i [])

/-- Fancy indexing `v[ind]` on a vector. -/
def selectVals (v : Vec) (ind : List Nat) : Vec := ind.map (fun i => v.getD i 0)

/-- The loop over `KFold` folds building the four lists `(X, Y, XT, YT)`. -/
def computeSplits (X : Mat) (Y : Vec) (k : Nat) (σ : List Nat) : Splits :=
  ((List.range k).map (fun i => selectRows X (trainInd σ X.length k i)),
   (List.range k).map (fun i => selectVals Y (trainInd σ X.length k i)),
   (List.range k).map (fun i => selectRows X (testInd σ X.length k i)),
   (List.range k).map (fun i => selectVals Y (testInd σ X.length k i)))

/-- The freshly computed result: the `k == 1` degenerate case returns the
whole dataset as both training and test set. -/
def freshSplits (d : GPCData) (k : Nat) (σ : List Nat) : Splits :=
  if k = 1 then ([d.X], [d.Y], [d.X], [d.Y]) else computeSplits d.X d.Y k σ

/-- `kFoldSplits(k)`: assert `0 < k <= N`, return the cached result when the
cached `nFolds` equals `k`, otherwise recompute (with the fresh shuffle `σ`)
and overwrite the cache. -/
def kFoldSplits (d : GPCData) (k : Nat) (σ : List Nat) :
    Except GPCError (Splits × GPCData) :=
  if k = 0 ∨ d.getNum < k then .error .invalidFoldCount
  else
    match d.foldCache with
    | some (kc, s) =>
        if kc = k then .ok (s, d)
        else
          let ret := freshSplits d k σ
          .ok (ret, { d with foldCache := some (k, ret) })
    | none =>
        let ret := freshSplits d k σ
        .ok (ret, { d with foldCache := some (k, ret) })

/-! ### Concrete instances used by witnesses -/

/-- A 3-point, 1-dimensional dataset. -/
def dW1 : GPCData := mkGPCData [[1], [2], [3]] [0, 1, 0]

/-- Its freshly computed 2-fold split for the shuffle `[1, 0, 2]`. -/
def sW1 : Splits := freshSplits dW1 2 [1, 0, 2]

/-- The instance state after a successful `kFoldSplits(2)` call on `dW1`. -/
def dW1c : GPCData := { dW1 with foldCache := some (2, sW1) }

/-! ### Helper lemmas -/

/-- The fold-count assertion fires exactly outside `[1, N]`. -/
lemma kFoldSplits_invalid (d : GPCData) (k : Nat) (σ : List Nat)
    (h : k = 0 ∨ d.getNum < k) :
    kFoldSplits d k σ = .error .invalidFoldCount := by
  unfold kFoldSplits
  rw [if_pos h]

/-- With the assertion satisfied, `kFoldSplits` always succeeds. -/
lemma kFoldSplits_isOk (d : GPCData) (k : Nat) (σ : List Nat)
    (h : ¬(k = 0 ∨ d.getNum < k)) :
    ∃ s d1, kFoldSplits d k σ = .ok (s, d1) := by
  unfold kFoldSplits
  rw [if_neg h]
  cases hc : d.foldCache with
  | none => exact ⟨_, _, rfl⟩
  | some p =>
      obtain ⟨kc, s⟩ := p
      dsimp only
      by_cases hk : kc = k
      · rw [if_pos hk]; exact ⟨_, _, rfl⟩
      · rw [if_neg hk]; exact ⟨_, _, rfl⟩

/-- Anatomy of a successful call: the precondition held, the resulting state
keeps `X`, `Y` and the statistics caches, and its fold cache holds exactly
the returned result keyed by `k`. -/
lemma kFoldSplits_ok_inv (d : GPCData) (k : Nat) (σ : List Nat)
    (s : Splits) (d1 : GPCData)
    (h : kFoldSplits d k σ = .ok (s, d1)) :
    d1.X = d.X ∧ d1.Y = d.Y ∧ d1.xranges = d.xranges ∧ d1.minseps = d.minseps ∧
      d1.foldCache = some (k, s) ∧ k ≠ 0 ∧ k ≤ d.getNum := by
  unfold kFoldSplits at h
  by_cases hpre : k = 0 ∨ d.getNum < k
  · rw [if_pos hpre] at h; exact absurd h (by simp)
  · rw [if_neg hpre] at h
    push_neg at hpre
    cases hc : d.foldCache with
    | none =>
        rw [hc] at h
        dsimp only at h
        simp only [Except.ok.injEq, Prod.mk.injEq] at h
        obtain ⟨hs, hd⟩ := h
        subst hs; subst hd
        exact ⟨rfl, rfl, rfl, rfl, rfl, hpre.1, by omega⟩
    | some p =>
        obtain ⟨kc, s0⟩ := p
        rw [hc] at h
        dsimp only at h
        by_cases hk : kc = k
        · rw [if_pos hk] at h
          simp only [Except.ok.injEq, Prod.mk.injEq] at h
          obtain ⟨hs, hd⟩ := h
          subst hs; subst hd
          exact ⟨rfl, rfl, rfl, rfl, by rw [hc, hk], hpre.1, by omega⟩
        · rw [if_neg hk] at h
          simp only [Except.ok.injEq, Prod.mk.injEq] at h
          obtain ⟨hs, hd⟩ := h
          subst hs; subst hd
          exact ⟨rfl, rfl, rfl, rfl, rfl, hpre.1, by omega⟩

/-- A cache hit returns the cached pair unchanged. -/
lemma kFoldSplits_cache_hit (d : GPCData) (k : Nat) (σ : List Nat) (s : Splits)
    (hc : d.foldCache = some (k, s)) (h : ¬(k = 0 ∨ d.getNum < k)) :
    kFoldSplits d k σ = .ok (s, d) := by
  unfold kFoldSplits
  rw [if_neg h, hc]
  dsimp only
  rw [if_pos rfl]

/-- A cache miss (different `k`) recomputes and overwrites the cache. -/
lemma kFoldSplits_cache_miss (d : GPCData) (k kc : Nat) (σ : List Nat) (s : Splits)
    (hc : d.foldCache = some (kc, s)) (hk : kc ≠ k) (h : ¬(k = 0 ∨ d.getNum < k)) :
    kFoldSplits d k σ =
      .ok (freshSplits d k σ, { d with foldCache := some (k, freshSplits d k σ) }) := by
  unfold kFoldSplits
  rw [if_neg h, hc]
  dsimp only
  rw [if_neg hk]

/-- A fresh object recomputes and populates the cache. -/
lemma kFoldSplits_cache_none (d : GPCData) (k : Nat) (σ : List Nat)
    (hc : d.foldCache = none) (h : ¬(k = 0 ∨ d.getNum < k)) :
    kFoldSplits d k σ =
      .ok (freshSplits d k σ, { d with foldCache := some (k, freshSplits d k σ) }) := by
  unfold kFoldSplits
  rw [if_neg h, hc]

/-- Slicing a range-indexed table at a valid index recovers the tabulated
function. -/
lemma getD_map_range {α : Type} (f : Nat → α) (a : α) (D j : Nat) (hj : j < D) :
    ((List.range D).map f).getD j a = f j := by
  rw [List.getD_eq_getElem _ _ (by simpa using hj)]
  simp

/-- A fresh `inputRange` call computes the whole cache and slices it. -/
lemma inputRange_fresh (d : GPCData) (dims : List Nat) (hfresh : d.xranges = none) :
    inputRange d dims =
      (dims.map (fun j => (computeRanges d.X d.getDim).getD j 0),
       { d with xranges := some (computeRanges d.X d.getDim) }) := by
  unfold inputRange
  rw [hfresh]

/-- A later `inputRange` call only slices the cache. -/
lemma inputRange_cached (d : GPCData) (dims : List Nat) (r : List ℚ)
    (hc : d.xranges = some r) :
    inputRange d dims = (dims.map (fun j => r.getD j 0), d) := by
  unfold inputRange
  rw [hc]

/-- Slicing the full range cache at valid dimensions agrees with the direct
per-dimension computation. -/
lemma computeRanges_slice (d : GPCData) (dimsx : List Nat)
    (hx : ∀ j ∈ dimsx, j < d.getDim) :
    dimsx.map (fun j => (computeRanges d.X d.getDim).getD j 0) =
      dimsx.map (fun j => listMax (col d.X j) - listMin (col d.X j)) := by
  apply List.map_congr_left
  intro j hj
  unfold computeRanges
  rw [getD_map_range _ _ _ _ (hx j hj)]
  rfl

/-! ### Minimum-separation machinery -/

/-- `np.diff` of a list is empty exactly when the list has at most one
entry. -/
lemma diffs_eq_nil_iff (l : List ℚ) : diffs l = [] ↔ l.length ≤ 1 := by
  match l with
  | [] => simp [diffs]
  | [a] => simp [diffs]
  | a :: b :: t => simp [diffs]

/-- `min` of an empty array is the error case. -/
lemma npMin_eq_none_iff (l : List ℚ) : npMin l = none ↔ l = [] := by
  cases l <;> simp [npMin]

/-- `np.unique` has as many entries as the column has distinct values. -/
lemma uniqueSorted_length (l : List ℚ) : (uniqueSorted l).length = l.toFinset.card := by
  unfold uniqueSorted
  rw [(List.perm_insertionSort _ _).length_eq, List.card_toFinset]

/-- The per-column minimum separation is undefined exactly when the column
has fewer than 2 distinct values. -/
lemma minsepCol_eq_none_iff (X : Mat) (j : Nat) :
    minsepCol X j = none ↔ (col X j).toFinset.card < 2 := by
  unfold minsepCol
  rw [npMin_eq_none_iff, diffs_eq_nil_iff, uniqueSorted_length]
  omega

/-- The cache-filling loop fails exactly when some requested dimension is
degenerate. -/
lemma computeMinseps_error_iff (X : Mat) (is : List Nat) :
    (∃ e, computeMinseps X is = .error e) ↔ ∃ i ∈ is, minsepCol X i = none := by
  induction is with
  | nil => simp [computeMinseps]
  | cons i is ih =>
      unfold computeMinseps
      cases hcol : minsepCol X i with
      | none => simp [hcol]
      | some v =>
          cases hrest : computeMinseps X is with
          | error e =>
              simp only [List.mem_cons]
              constructor
              · intro _
                obtain ⟨j, hj, hnone⟩ := ih.mp ⟨e, hrest⟩
                exact ⟨j, Or.inr hj, hnone⟩
              · intro _; exact ⟨e, rfl⟩
          | ok vs =>
              simp only [List.mem_cons]
              constructor
              · rintro ⟨e, he⟩; exact absurd he (by simp)
              · rintro ⟨j, hj, hnone⟩
                rcases hj with hj | hj
                · rw [hj] at hnone; rw [hnone] at hcol; exact absurd hcol (by simp)
                · obtain ⟨e, he⟩ := ih.mpr ⟨j, hj, hnone⟩
                  rw [he] at hrest; exact absurd hrest (by simp)

/-- The cache-filling loop, when it succeeds, tabulates the per-column
minimum separations. -/
lemma computeMinseps_ok (X : Mat) (is : List Nat) (l : List ℚ)
    (h : computeMinseps X is = .ok l) : l = is.map (minsepVal X) := by
  induction is generalizing l with
  | nil =>
      unfold computeMinseps at h
      simp only [Except.ok.injEq] at h
      simp [← h]
  | cons i is ih =>
      unfold computeMinseps at h
      cases hcol : minsepCol X i with
      | none => rw [hcol] at h; exact absurd h (by simp)
      | some v =>
          rw [hcol] at h
          cases hrest : computeMinseps X is with
          | error e => rw [hrest] at h; exact absurd h (by simp)
          | ok vs =>
              rw [hrest] at h
              simp only [Except.ok.injEq] at h
              rw [← h, List.map_cons, ih vs hrest]
              unfold minsepVal
              rw [hcol]
              rfl

/-- A successful `minSeparation` call leaves `X`, `Y` and the other caches
untouched and stores the full `minseps` table. -/
lemma minSeparation_fresh_ok (d : GPCData) (dims : List Nat) (ms : List ℚ)
    (d1 : GPCData) (hfresh : d.minseps = none)
    (h : minSeparation d dims = .ok (ms, d1)) :
    ms = dims.map (fun j => (((List.range d.getDim).map (minsepVal d.X))).getD j 0) ∧
      d1 = { d with minseps := some ((List.range d.getDim).map (minsepVal d.X)) } := by
  unfold minSeparation at h
  rw [hfresh] at h
  cases hcm : computeMinseps d.X (List.range d.getDim) with
  | error e => rw [hcm] at h; exact absurd h (by simp)
  | ok l =>
      rw [hcm] at h
      have hl : l = (List.range d.getDim).map (minsepVal d.X) := computeMinseps_ok _ _ _ hcm
      simp only [Except.ok.injEq, Prod.mk.injEq] at h
      obtain ⟨hms, hd1⟩ := h
      subst hl
      exact ⟨hms.symm, hd1.symm⟩

/-- Any error propagated by the cache-filling loop is the degenerate-column
error. -/
lemma computeMinseps_error_eq (X : Mat) (is : List Nat) :
    ∀ e, computeMinseps X is = .error e → e = .degenerateDimension := by
  induction is with
  | nil => intro e h; exact absurd h (by simp [computeMinseps])
  | cons i is ih =>
      intro e h
      unfold computeMinseps at h
      cases hcol : minsepCol X i with
      | none => rw [hcol] at h; simp only [Except.error.injEq] at h; exact h.symm
      | some v =>
          rw [hcol] at h
          cases hrest : computeMinseps X is with
          | error e0 =>
              rw [hrest] at h
              simp only [Except.error.injEq] at h
              rw [← h]
              exact ih e0 hrest
          | ok vs => rw [hrest] at h; exact absurd h (by simp)

/-- When no dimension is degenerate, a fresh `minSeparation` call succeeds,
returning the sliced table and caching the full table. -/
lemma minSeparation_ok_of_nondegenerate (d : GPCData) (dims : List Nat)
    (hfresh : d.minseps = none)
    (hnd : ∀ i, i < d.getDim → 2 ≤ (col d.X i).toFinset.card) :
    minSeparation d dims =
      .ok (dims.map (fun j => ((List.range d.getDim).map (minsepVal d.X)).getD j 0),
           { d with minseps := some ((List.range d.getDim).map (minsepVal d.X)) }) := by
  unfold minSeparation
  rw [hfresh]
  cases hcm : computeMinseps d.X (List.range d.getDim) with
  | error e =>
      obtain ⟨i, hi, hnone⟩ := (computeMinseps_error_iff d.X _).mp ⟨e, hcm⟩
      rw [List.mem_range] at hi
      have h1 := (minsepCol_eq_none_iff d.X i).mp hnone
      have h2 := hnd i hi
      exact absurd h1 (by omega)
  | ok l =>
      rw [computeMinseps_ok d.X _ l hcm]

/-! ### Claims -/

/-- **C8.** `inputRange(dims)` sliced from the cache — whether the cache is
populated by this very call or by an earlier call with arbitrary other
dimensions — equals the direct computation `max(X[:,d]) - min(X[:,d])` for
exactly the requested dimensions. -/
theorem inputRange_cache_correct (d : GPCData) (dims dims0 : List Nat)
    (hfresh : d.xranges = none) (hdims : ∀ j ∈ dims, j < d.getDim) :
    (inputRange d dims).1 =
      dims.map (fun j => listMax (col d.X j) - listMin (col d.X j)) ∧
    (inputRange (inputRange d dims0).2 dims).1 =
      dims.map (fun j => listMax (col d.X j) - listMin (col d.X j)) := by
  constructor
  · rw [inputRange_fresh d dims hfresh]
    exact computeRanges_slice d dims hdims
  · rw [inputRange_fresh d dims0 hfresh,
        inputRange_cached _ dims (computeRanges d.X d.getDim) rfl]
    exact computeRanges_slice d dims hdims

/-- Witness for C8 on the 6-point example dataset, slicing dimension 0
after a first call with the same dimension list. -/
theorem inputRange_cache_correct_witness :
    (inputRange (mkGPCData [[1], [2], [3], [4], [5], [6]] [0, 1, 0, 1, 0, 1]) [0]).1 =
      [0].map (fun j =>
        listMax (col [[1], [2], [3], [4], [5], [6]] j) -
          listMin (col [[1], [2], [3], [4], [5], [6]] j)) ∧
    (inputRange
        (inputRange (mkGPCData [[1], [2], [3], [4], [5], [6]] [0, 1, 0, 1, 0, 1]) [0]).2
        [0]).1 =
      [0].map (fun j =>
        listMax (col [[1], [2], [3], [4], [5], [6]] j) -
          listMin (col [[1], [2], [3], [4], [5], [6]] j)) :=
  inputRange_cache_correct (mkGPCData [[1], [2], [3], [4], [5], [6]] [0, 1, 0, 1, 0, 1])
    [0] [0] rfl (by decide)

/-- **C2.** On a fresh dataset, `minSeparation` fails with the degenerate-
dimension error exactly when some input dimension (whether requested or not)
has fewer than 2 distinct values; otherwise it succeeds, returns for each
requested dimension the minimum adjacent difference of the sorted distinct
column values, caches the full D-dimension table, and later calls slice that
cache. -/
theorem minSeparation_spec (d : GPCData) (dims dims' : List Nat)
    (hfresh : d.minseps = none)
    (hdims : ∀ j ∈ dims, j < d.getDim) (hdims' : ∀ j ∈ dims', j < d.getDim) :
    (minSeparation d dims = .error .degenerateDimension ↔
       ∃ i, i < d.getDim ∧ (col d.X i).toFinset.card < 2) ∧
    ((¬∃ i, i < d.getDim ∧ (col d.X i).toFinset.card < 2) →
       ∃ ms d1, minSeparation d dims = .ok (ms, d1)) ∧
    (∀ ms d1, minSeparation d dims = .ok (ms, d1) →
       ms = dims.map (fun j => minsepVal d.X j) ∧
       d1.minseps = some ((List.range d.getDim).map (minsepVal d.X)) ∧
       minSeparation d1 dims' = .ok (dims'.map (fun j => minsepVal d.X j), d1)) := by
  have hslice : ∀ dimsx : List Nat, (∀ j ∈ dimsx, j < d.getDim) →
      dimsx.map (fun j => ((List.range d.getDim).map (minsepVal d.X)).getD j 0) =
        dimsx.map (fun j => minsepVal d.X j) := by
    intro dimsx hx
    apply List.map_congr_left
    intro j hj
    exact getD_map_range _ _ _ _ (hx j hj)
  refine ⟨?_, ?_, ?_⟩
  · constructor
    · intro he
      by_contra hcon
      push_neg at hcon
      rw [minSeparation_ok_of_nondegenerate d dims hfresh hcon] at he
      exact absurd he (by simp)
    · rintro ⟨i, hi, hcard⟩
      unfold minSeparation
      rw [hfresh]
      cases hcm : computeMinseps d.X (List.range d.getDim) with
      | error e => rw [computeMinseps_error_eq d.X _ e hcm]
      | ok l =>
          have : ∃ e, computeMinseps d.X (List.range d.getDim) = .error e :=
            (computeMinseps_error_iff d.X _).mpr
              ⟨i, List.mem_range.mpr hi, (minsepCol_eq_none_iff d.X i).mpr hcard⟩
          obtain ⟨e, he⟩ := this
          rw [he] at hcm
          exact absurd hcm (by simp)
  · intro hcon
    push_neg at hcon
    exact ⟨_, _, minSeparation_ok_of_nondegenerate d dims hfresh hcon⟩
  · intro ms d1 h
    obtain ⟨hms, hd1⟩ := minSeparation_fresh_ok d dims ms d1 hfresh h
    refine ⟨by rw [hms]; exact hslice dims hdims, by rw [hd1], ?_⟩
    have hc1 : d1.minseps = some ((List.range d.getDim).map (minsepVal d.X)) := by
      rw [hd1]
    unfold minSeparation
    rw [hc1]
    dsimp only
    rw [hslice dims' hdims']

/-- Witness for C2: the example dataset is non-degenerate with separation 1;
a dataset with a constant column is degenerate. -/
theorem minSeparation_spec_witness :
    (minSeparation (mkGPCData [[1], [2], [3], [4], [5], [6]] [0, 1, 0, 1, 0, 1]) [0] =
        .error .degenerateDimension ↔
      ∃ i, i < 1 ∧ (col [[1], [2], [3], [4], [5], [6]] i).toFinset.card < 2) ∧
    minSeparation (mkGPCData [[1, 2], [1, 3]] [0, 1]) [1] = .error .degenerateDimension :=
  ⟨(minSeparation_spec (mkGPCData [[1], [2], [3], [4], [5], [6]] [0, 1, 0, 1, 0, 1])
      [0] [0] rfl (by decide) (by decide)).1,
   (minSeparation_spec (mkGPCData [[1, 2], [1, 3]] [0, 1]) [1] [1] rfl (by decide)
      (by decide)).1.mpr ⟨0, by decide, by decide⟩⟩

/-- **C7.** On a fresh dataset with no degenerate dimension,
`getLengthscaleBounds(dims)` succeeds, and the returned 2-row matrix has
row 0 equal to the `minSeparation(dims)` values and row 1 equal to the
`inputRange(dims)` values multiplied by 2. -/
theorem lengthscaleBounds_spec (d : GPCData) (dims : List Nat)
    (hnd : ∀ i, i < d.getDim → 2 ≤ (col d.X i).toFinset.card)
    (hfm : d.minseps = none) (hfr : d.xranges = none) :
    ∃ b d2 ms d1 rg dr,
      getLengthscaleBounds d dims = .ok (b, d2) ∧
      minSeparation d dims = .ok (ms, d1) ∧
      inputRange d dims = (rg, dr) ∧
      b.1 = ms ∧ b.2 = rg.map (fun x => x * 2) := by
  have hms := minSeparation_ok_of_nondegenerate d dims hfm hnd
  have hrg := inputRange_fresh d dims hfr
  have h1 : inputRange { d with minseps := some ((List.range d.getDim).map (minsepVal d.X)) } dims =
      (dims.map (fun j => (computeRanges d.X d.getDim).getD j 0),
       { d with minseps := some ((List.range d.getDim).map (minsepVal d.X)),
                xranges := some (computeRanges d.X d.getDim) }) :=
    inputRange_fresh _ dims hfr
  have hb : getLengthscaleBounds d dims =
      .ok ((dims.map (fun j => ((List.range d.getDim).map (minsepVal d.X)).getD j 0),
            (dims.map (fun j => (computeRanges d.X d.getDim).getD j 0)).map (fun x => x * 2)),
           { d with minseps := some ((List.range d.getDim).map (minsepVal d.X)),
                    xranges := some (computeRanges d.X d.getDim) }) := by
    unfold getLengthscaleBounds
    rw [hms]
    dsimp only
    rw [h1]
  exact ⟨_, _, _, _, _, _, hb, hms, hrg, rfl, rfl⟩

/-- Witness for C7 on the 6-point example dataset: bounds `([1], [10])`. -/
theorem lengthscaleBounds_spec_witness :
    ∃ b d2 ms d1 rg dr,
      getLengthscaleBounds (mkGPCData [[1], [2], [3], [4], [5], [6]] [0, 1, 0, 1, 0, 1]) [0] =
        .ok (b, d2) ∧
      minSeparation (mkGPCData [[1], [2], [3], [4], [5], [6]] [0, 1, 0, 1, 0, 1]) [0] =
        .ok (ms, d1) ∧
      inputRange (mkGPCData [[1], [2], [3], [4], [5], [6]] [0, 1, 0, 1, 0, 1]) [0] =
        (rg, dr) ∧
      b.1 = ms ∧ b.2 = rg.map (fun x => x * 2) :=
  lengthscaleBounds_spec (mkGPCData [[1], [2], [3], [4], [5], [6]] [0, 1, 0, 1, 0, 1]) [0]
    (by decide) rfl rfl

/-! ### Invariance of the minimum separation (C9) -/

/-- `np.unique` depends only on the set of values present. -/
lemma uniqueSorted_eq_of_mem_iff (l l' : List ℚ) (h : ∀ a, a ∈ l ↔ a ∈ l') :
    uniqueSorted l = uniqueSorted l' := by
  unfold uniqueSorted
  have hdd : List.Perm l.dedup l'.dedup := by
    rw [List.perm_ext_iff_of_nodup (List.nodup_dedup l) (List.nodup_dedup l')]
    intro a
    rw [List.mem_dedup, List.mem_dedup]
    exact h a
  have hp : List.Perm (l.dedup.insertionSort (· ≤ ·)) (l'.dedup.insertionSort (· ≤ ·)) :=
    ((List.perm_insertionSort _ _).trans hdd).trans (List.perm_insertionSort _ _).symm
  exact List.eq_of_perm_of_sorted hp
    (List.sorted_insertionSort _ _) (List.sorted_insertionSort _ _)

/-- The per-column minimum separation depends only on the set of values of
the column. -/
lemma minsepCol_congr (X X' : Mat) (j : Nat)
    (h : ∀ a, a ∈ col X j ↔ a ∈ col X' j) : minsepCol X j = minsepCol X' j := by
  unfold minsepCol
  rw [uniqueSorted_eq_of_mem_iff _ _ h]

/-- The cache-filling loop is invariant under columnwise value-set-preserving
changes of the matrix. -/
lemma computeMinseps_congr (X X' : Mat) (is : List Nat)
    (h : ∀ j, minsepCol X j = minsepCol X' j) :
    computeMinseps X is = computeMinseps X' is := by
  induction is with
  | nil => rfl
  | cons i is ih =>
      unfold computeMinseps
      rw [h i, ih]

/-- **C9.** `minSeparation` is invariant under permuting the data rows and
under appending duplicate rows: on two fresh datasets whose input matrices
are related in either way (and report the same dimension count), it returns
the same value — error or list — for every requested dimension list. -/
theorem minSeparation_row_invariance (X X' : Mat) (Y Y' : Vec) (dims : List Nat)
    (hcase : List.Perm X' X ∨ ∃ dup, X' = X ++ dup ∧ ∀ r ∈ dup, r ∈ X)
    (hD : (mkGPCData X' Y').getDim = (mkGPCData X Y).getDim) :
    (minSeparation (mkGPCData X' Y') dims).map Prod.fst =
      (minSeparation (mkGPCData X Y) dims).map Prod.fst := by
  have hmem : ∀ j a, a ∈ col X' j ↔ a ∈ col X j := by
    intro j a
    rcases hcase with hperm | ⟨dup, hX2, hdup⟩
    · exact (hperm.map _).mem_iff
    · subst hX2
      unfold col
      rw [List.map_append, List.mem_append]
      constructor
      · rintro (h | h)
        · exact h
        · obtain ⟨r, hr, hra⟩ := List.mem_map.mp h
          exact List.mem_map.mpr ⟨r, hdup r hr, hra⟩
      · exact Or.inl
  have hcol : ∀ j, minsepCol X' j = minsepCol X j :=
    fun j => minsepCol_congr X' X j (hmem j)
  unfold minSeparation
  dsimp only [mkGPCData]
  have hD2 : GPCData.getDim ⟨X', Y', none, none, none⟩ =
      GPCData.getDim ⟨X, Y, none, none, none⟩ := hD
  rw [hD2]
  rw [computeMinseps_congr X' X _ hcol]
  cases hcm : computeMinseps X (List.range (GPCData.getDim ⟨X, Y, none, none, none⟩)) with
  | error e => rfl
  | ok l => rfl

/-- Witness for C9: a row permutation and a duplicated row of a 2-point
dataset give the same minimum separation. -/
theorem minSeparation_row_invariance_witness :
    (minSeparation (mkGPCData [[2], [1]] [0, 1]) [0]).map Prod.fst =
      (minSeparation (mkGPCData [[1], [2]] [0, 1]) [0]).map Prod.fst ∧
    (minSeparation (mkGPCData [[1], [2], [1]] [0, 1, 0]) [0]).map Prod.fst =
      (minSeparation (mkGPCData [[1], [2]] [0, 1]) [0]).map Prod.fst :=
  ⟨minSeparation_row_invariance [[1], [2]] [[2], [1]] [0, 1] [0, 1] [0]
      (Or.inl (by decide)) rfl,
   minSeparation_row_invariance [[1], [2]] [[1], [2], [1]] [0, 1] [0, 1, 0] [0]
      (Or.inr ⟨[[1]], rfl, by decide⟩) rfl⟩

/-- **C3.** When the `XLabel` argument is absent (`None`), or not a
`list`/`tuple`, or of the wrong length, `__init__` generates the default
labels `$x_{1}$ ... $x_{D}$`, one per dimension, 1-indexed; a `list`/`tuple`
of length exactly `D` is used verbatim. -/
theorem mkXLabels_spec (D : Nat) (l : List String) :
    mkXLabels .noLabel D = defaultXLabels D ∧
    mkXLabels .otherLabel D = defaultXLabels D ∧
    (l.length ≠ D → mkXLabels (.seqLabel l) D = defaultXLabels D) ∧
    (l.length = D → mkXLabels (.seqLabel l) D = l) ∧
    (defaultXLabels D).length = D ∧
    (∀ j, j < D → (defaultXLabels D).getD j "" = genXLabel (j + 1)) := by
  refine ⟨rfl, rfl, ?_, ?_, by simp [defaultXLabels], ?_⟩
  · intro h; simp [mkXLabels, h]
  · intro h; simp [mkXLabels, h]
  · intro j hj
    have hlen : j < (defaultXLabels D).length := by simp [defaultXLabels, hj]
    rw [List.getD_eq_getElem _ _ hlen]
    simp [defaultXLabels]

/-- Witness for C3 at `D = 2`: wrong-length and right-length arguments. -/
theorem mkXLabels_spec_witness :
    mkXLabels (.seqLabel ["a"]) 2 = defaultXLabels 2 ∧
    mkXLabels (.seqLabel ["a", "b"]) 2 = ["a", "b"] :=
  ⟨(mkXLabels_spec 2 ["a"]).2.2.1 (by decide),
   (mkXLabels_spec 2 ["a", "b"]).2.2.2.1 rfl⟩

/-- **C5.** On a fresh dataset, `kFoldSplits(1)` returns four singleton
lists whose single entries are the full `X` and `Y` arrays: training and
test set are both the entire dataset. -/
theorem kFoldSplits_one_spec (d : GPCData) (σ : List Nat)
    (hN : 1 ≤ d.getNum) (hfresh : d.foldCache = none) :
    kFoldSplits d 1 σ =
      .ok (([d.X], [d.Y], [d.X], [d.Y]),
           { d with foldCache := some (1, ([d.X], [d.Y], [d.X], [d.Y])) }) := by
  have hpre : ¬(1 = 0 ∨ d.getNum < 1) := by omega
  rw [kFoldSplits_cache_none d 1 σ hfresh hpre]
  simp [freshSplits]

/-- Witness for C5 on a concrete 2-point dataset. -/
theorem kFoldSplits_one_spec_witness :
    kFoldSplits (mkGPCData [[1], [2]] [0, 1]) 1 [0, 1] =
      .ok (([[[1], [2]]], [[0, 1]], [[[1], [2]]], [[0, 1]]),
           { mkGPCData [[1], [2]] [0, 1] with
               foldCache := some (1, ([[[1], [2]]], [[0, 1]], [[[1], [2]]], [[0, 1]])) }) :=
  kFoldSplits_one_spec (mkGPCData [[1], [2]] [0, 1]) [0, 1] (by decide) rfl

/-- **C6.** `kFoldSplits(k)` fails (and fails with `InvalidFoldCountError`)
exactly when `k < 1` or `k > N`; every `k` in `[1, N]` succeeds. -/
theorem kFoldSplits_error_iff (d : GPCData) (k : Nat) (σ : List Nat) :
    ((∃ e, kFoldSplits d k σ = .error e) ↔ (k < 1 ∨ d.getNum < k)) ∧
    (kFoldSplits d k σ = .error .invalidFoldCount ↔ (k < 1 ∨ d.getNum < k)) := by
  have hiff : (k < 1 ∨ d.getNum < k) ↔ (k = 0 ∨ d.getNum < k) := by omega
  constructor
  · constructor
    · rintro ⟨e, he⟩
      by_contra hcon
      rw [hiff] at hcon
      obtain ⟨s, d1, hok⟩ := kFoldSplits_isOk d k σ hcon
      rw [hok] at he
      exact absurd he (by simp)
    · intro h
      exact ⟨.invalidFoldCount, kFoldSplits_invalid d k σ (hiff.mp h)⟩
  · constructor
    · intro he
      by_contra hcon
      rw [hiff] at hcon
      obtain ⟨s, d1, hok⟩ := kFoldSplits_isOk d k σ hcon
      rw [hok] at he
      exact absurd he (by simp)
    · intro h
      exact kFoldSplits_invalid d k σ (hiff.mp h)

/-! ### Partition properties of the k-fold blocks (C4) -/

/-- Slicing yields one slice per requested size. -/
lemma sliceList_length {α : Type} (l : List α) (ss : List Nat) :
    (sliceList l ss).length = ss.length := by
  induction ss generalizing l with
  | nil => rfl
  | cons s ss ih => simp [sliceList, ih]

/-- Concatenating the slices recovers a prefix of the list of the total
size. -/
lemma sliceList_flatten {α : Type} (l : List α) (ss : List Nat) :
    (sliceList l ss).flatten = l.take ss.sum := by
  induction ss generalizing l with
  | nil => simp [sliceList]
  | cons s ss ih =>
      simp only [sliceList, List.flatten_cons, List.sum_cons, ih, List.take_add]

/-- One fold size per fold. -/
lemma foldSizes_length (n k : Nat) : (foldSizes n k).length = k := by
  simp [foldSizes]

/-- Summing `q` plus an indicator of `i < m` over `range K`. -/
lemma sum_map_range_add_ite (K q m : Nat) :
    ((List.range K).map (fun i => q + if i < m then 1 else 0)).sum =
      K * q + min m K := by
  induction K with
  | zero => simp
  | succ K ih =>
      simp only [List.range_succ, List.map_append, List.sum_append, List.map_cons,
        List.map_nil, List.sum_cons, List.sum_nil, ih]
      by_cases h : K < m
      · have h1 : min m K = K := by omega
        have h2 : min m (K + 1) = K + 1 := by omega
        rw [if_pos h, h1, h2, Nat.succ_mul]
        ring
      · have h1 : min m K = m := by omega
        have h2 : min m (K + 1) = m := by omega
        rw [if_neg h, h1, h2, Nat.succ_mul]
        ring

/-- The balanced fold sizes add up to `n`. -/
lemma foldSizes_sum (n k : Nat) (hk : 0 < k) : (foldSizes n k).sum = n := by
  unfold foldSizes
  rw [sum_map_range_add_ite]
  have h1 : n % k < k := Nat.mod_lt n hk
  have h2 : min (n % k) k = n % k := by omega
  rw [h2]
  exact Nat.div_add_mod n k

/-- The `k` test blocks concatenate back to the shuffled index list. -/
lemma testBlocks_flatten (σ : List Nat) (n k : Nat) (hk : 0 < k)
    (hlen : σ.length = n) : (testBlocks σ n k).flatten = σ := by
  unfold testBlocks
  rw [sliceList_flatten, foldSizes_sum n k hk]
  exact List.take_of_length_le (by omega)

/-- There are exactly `k` test blocks. -/
lemma testBlocks_length (σ : List Nat) (n k : Nat) :
    (testBlocks σ n k).length = k := by
  unfold testBlocks
  rw [sliceList_length, foldSizes_length]

/-- For a duplicate-free shuffle the test blocks are pairwise disjoint. -/
lemma testBlocks_pairwise (σ : List Nat) (n k : Nat) (hk : 0 < k)
    (hlen : σ.length = n) (hnd : σ.Nodup) :
    List.Pairwise List.Disjoint (testBlocks σ n k) := by
  have h : (testBlocks σ n k).flatten.Nodup := by
    rw [testBlocks_flatten σ n k hk hlen]
    exact hnd
  exact (List.nodup_flatten.mp h).2

/-- Membership in the sorted test indices of fold `i`. -/
lemma mem_testInd (σ : List Nat) (n k i x : Nat) :
    x ∈ testInd σ n k i ↔ x < n ∧ x ∈ (testBlocks σ n k).getD i [] := by
  unfold testInd
  simp [List.mem_filter]

/-- Membership in the sorted train indices of fold `i`. -/
lemma mem_trainInd (σ : List Nat) (n k i x : Nat) :
    x ∈ trainInd σ n k i ↔ x < n ∧ x ∉ (testBlocks σ n k).getD i [] := by
  unfold trainInd
  simp [List.mem_filter]

/-- **C4.** On a fresh dataset, for `1 < k ≤ N` and any shuffle `σ` of the
row indices, `kFoldSplits(k)` returns the computed splits; the `k` test
blocks are pairwise disjoint, together they cover every row index, each
fold's train indices are exactly the complement of its test indices, and
the returned train/test arrays are the rows of `X` at those indices. -/
theorem kFoldSplits_partition (d : GPCData) (k : Nat) (σ : List Nat)
    (hk1 : 1 < k) (hkN : k ≤ d.getNum) (hσ : List.Perm σ (List.range d.getNum))
    (hfresh : d.foldCache = none) :
    kFoldSplits d k σ =
      .ok (computeSplits d.X d.Y k σ,
           { d with foldCache := some (k, computeSplits d.X d.Y k σ) }) ∧
    (∀ i j, i < k → j < k → i ≠ j →
       ∀ x, x ∈ testInd σ d.getNum k i → x ∉ testInd σ d.getNum k j) ∧
    (∀ x, x < d.getNum → ∃ i, i < k ∧ x ∈ testInd σ d.getNum k i) ∧
    (∀ i x, x ∈ trainInd σ d.getNum k i ↔
       x < d.getNum ∧ x ∉ testInd σ d.getNum k i) ∧
    (∀ i, i < k →
       (computeSplits d.X d.Y k σ).1.getD i [] =
         selectRows d.X (trainInd σ d.getNum k i) ∧
       (computeSplits d.X d.Y k σ).2.2.1.getD i [] =
         selectRows d.X (testInd σ d.getNum k i)) := by
  have hk0 : 0 < k := by omega
  have hlen : σ.length = d.getNum := by
    have := hσ.length_eq
    simpa using this
  have hnd : σ.Nodup := hσ.nodup_iff.mpr (List.nodup_range _)
  refine ⟨?_, ?_, ?_, ?_, ?_⟩
  · rw [kFoldSplits_cache_none d k σ hfresh (by omega)]
    have hfs : freshSplits d k σ = computeSplits d.X d.Y k σ := by
      unfold freshSplits
      rw [if_neg (by omega)]
    rw [hfs]
  · intro i j hi hj hij x hxi hxj
    rw [mem_testInd] at hxi hxj
    have hpw := testBlocks_pairwise σ d.getNum k hk0 hlen hnd
    have hgetP := List.pairwise_iff_getElem.mp hpw
    have hi2 : i < (testBlocks σ d.getNum k).length := by
      rw [testBlocks_length]
      omega
    have hj2 : j < (testBlocks σ d.getNum k).length := by
      rw [testBlocks_length]
      omega
    have hxi2 := hxi.2
    have hxj2 := hxj.2
    rw [List.getD_eq_getElem _ _ hi2] at hxi2
    rw [List.getD_eq_getElem _ _ hj2] at hxj2
    rcases Nat.lt_or_ge i j with hlt | hge
    · exact hgetP i j hi2 hj2 hlt hxi2 hxj2
    · have hlt : j < i := by omega
      exact hgetP j i hj2 hi2 hlt hxj2 hxi2
  · intro x hx
    have hmem : x ∈ σ := hσ.mem_iff.mpr (List.mem_range.mpr hx)
    have : x ∈ (testBlocks σ d.getNum k).flatten := by
      rw [testBlocks_flatten σ d.getNum k hk0 hlen]
      exact hmem
    obtain ⟨b, hb, hxb⟩ := List.mem_flatten.mp this
    obtain ⟨i, hi, hbi⟩ := List.getElem_of_mem hb
    rw [testBlocks_length] at hi
    refine ⟨i, hi, ?_⟩
    rw [mem_testInd]
    refine ⟨hx, ?_⟩
    rw [List.getD_eq_getElem _ _ (by rw [testBlocks_length]; exact hi), hbi]
    exact hxb
  · intro i x
    rw [mem_trainInd, mem_testInd]
    constructor
    · rintro ⟨h1, h2⟩
      exact ⟨h1, fun hc => h2 hc.2⟩
    · rintro ⟨h1, h2⟩
      exact ⟨h1, fun hc => h2 ⟨h1, hc⟩⟩
  · intro i hi
    unfold computeSplits
    constructor
    · exact getD_map_range _ _ k i hi
    · exact getD_map_range _ _ k i hi

/-- Witness for C4 on a 5-point dataset with `k = 2` and a concrete
shuffle: the call equation, a cross-fold exclusion, and the fold-0 train
rows. -/
theorem kFoldSplits_partition_witness :
    kFoldSplits (mkGPCData [[1], [2], [3], [4], [5]] [0, 1, 0, 1, 0]) 2 [2, 0, 4, 1, 3] =
      .ok (computeSplits [[1], [2], [3], [4], [5]] [0, 1, 0, 1, 0] 2 [2, 0, 4, 1, 3],
           { mkGPCData [[1], [2], [3], [4], [5]] [0, 1, 0, 1, 0] with
               foldCache :=
                 some (2, computeSplits [[1], [2], [3], [4], [5]] [0, 1, 0, 1, 0] 2
                   [2, 0, 4, 1, 3]) }) ∧
    2 ∉ testInd [2, 0, 4, 1, 3] 5 2 1 ∧
    (computeSplits [[1], [2], [3], [4], [5]] [0, 1, 0, 1, 0] 2 [2, 0, 4, 1, 3]).1.getD 0 [] =
      selectRows [[1], [2], [3], [4], [5]] (trainInd [2, 0, 4, 1, 3] 5 2 0) := by
  have T := kFoldSplits_partition (mkGPCData [[1], [2], [3], [4], [5]] [0, 1, 0, 1, 0])
    2 [2, 0, 4, 1, 3] (by omega) (by decide) (by decide) rfl
  exact ⟨T.1, T.2.1 0 1 (by omega) (by omega) (by omega) 2 (by decide),
    (T.2.2.2.2 0 (by omega)).1⟩

/-- **C1.** The fold cache is keyed on `k`: after a successful
`kFoldSplits(k)`, calling again with the same `k` returns the identical
cached partition whatever the new shuffle is, while calling with `k' ≠ k`
behaves exactly like a call on a cache-free object — it recomputes from the
new shuffle and overwrites the cache with the `k'`-keyed result. -/
theorem kFoldSplits_memo_keyed (d : GPCData) (k k' : Nat) (σ σ' σ'' : List Nat)
    (s : Splits) (d1 : GPCData)
    (h : kFoldSplits d k σ = .ok (s, d1)) (hne : k' ≠ k) :
    kFoldSplits d1 k σ' = .ok (s, d1) ∧
    kFoldSplits d1 k' σ'' = kFoldSplits { d1 with foldCache := none } k' σ'' ∧
    (k' ≠ 0 → k' ≤ d.getNum →
      kFoldSplits d1 k' σ'' =
        .ok (freshSplits d1 k' σ'',
             { d1 with foldCache := some (k', freshSplits d1 k' σ'') })) := by
  obtain ⟨hX, hY, hxr, hms, hc, hk0, hkN⟩ := kFoldSplits_ok_inv d k σ s d1 h
  have hnum : d1.getNum = d.getNum := by
    unfold GPCData.getNum
    rw [hX]
  refine ⟨?_, ?_, ?_⟩
  · exact kFoldSplits_cache_hit d1 k σ' s hc (by omega)
  · by_cases hv : k' = 0 ∨ d1.getNum < k'
    · rw [kFoldSplits_invalid d1 k' σ'' hv,
          kFoldSplits_invalid { d1 with foldCache := none } k' σ'' hv]
    · rw [kFoldSplits_cache_miss d1 k' k σ'' s hc (fun hcon => hne hcon.symm) hv,
          kFoldSplits_cache_none { d1 with foldCache := none } k' σ'' rfl hv]
      rfl
  · intro hk'0 hk'N
    exact kFoldSplits_cache_miss d1 k' k σ'' s hc (fun hcon => hne hcon.symm)
      (by omega)

/-- Witness for C1: after caching the 2-fold split of a 3-point dataset, a
repeated `k = 2` call returns the cached pair and a `k = 1` call recomputes
freshly. -/
theorem kFoldSplits_memo_keyed_witness :
    kFoldSplits dW1c 2 [0, 1, 2] = .ok (sW1, dW1c) ∧
    kFoldSplits dW1c 1 [0, 2, 1] = kFoldSplits { dW1c with foldCache := none } 1 [0, 2, 1] ∧
    kFoldSplits dW1c 1 [0, 2, 1] =
      .ok (freshSplits dW1c 1 [0, 2, 1],
           { dW1c with foldCache := some (1, freshSplits dW1c 1 [0, 2, 1]) }) := by
  have T := kFoldSplits_memo_keyed dW1 2 1 [1, 0, 2] [0, 1, 2] [0, 2, 1] sW1 dW1c
    rfl (by omega)
  exact ⟨T.1, T.2.1, T.2.2 (by omega) (by decide)⟩

/-- **C10.** A failing fold request leaves the cache intact: after a
successful `kFoldSplits(k)`, a call with an invalid `k'` raises the
fold-count error without touching the instance state, and a further call
with the original `k` still returns the identical cached partition. -/
theorem kFoldSplits_error_preserves (d : GPCData) (k k' : Nat)
    (σ σ' σ'' : List Nat) (s : Splits) (d1 : GPCData)
    (h : kFoldSplits d k σ = .ok (s, d1)) (hbad : k' = 0 ∨ d1.getNum < k') :
    kFoldSplits d1 k' σ' = .error .invalidFoldCount ∧
    kFoldSplits d1 k σ'' = .ok (s, d1) := by
  obtain ⟨hX, hY, hxr, hms, hc, hk0, hkN⟩ := kFoldSplits_ok_inv d k σ s d1 h
  have hnum : d1.getNum = d.getNum := by
    unfold GPCData.getNum
    rw [hX]
  exact ⟨kFoldSplits_invalid d1 k' σ' hbad,
         kFoldSplits_cache_hit d1 k σ'' s hc (by omega)⟩

/-- Witness for C10: requesting 4 folds of the 3-point dataset fails, and
the cached 2-fold result is still returned afterwards. -/
theorem kFoldSplits_error_preserves_witness :
    kFoldSplits dW1c 4 [0, 1, 2] = .error .invalidFoldCount ∧
    kFoldSplits dW1c 2 [2, 1, 0] = .ok (sW1, dW1c) :=
  kFoldSplits_error_preserves dW1 2 4 [1, 0, 2] [0, 1, 2] [2, 1, 0] sW1 dW1c
    rfl (by decide)

end AutoGPC
